import Mathlib

/-!
Verification of the dependency-aware deletion ordering engine of the
`awsremove` repository.

The definitions below are a shallow embedding of
`src/awscleanup/core/discovery.py` (`ResourceDiscovery.get_deletion_order`
and `ResourceDiscovery._build_dependency_map`) and of the legacy inline
ordering loop in `aws_cleanup.py` (`InteractiveCleanup.delete_resources`).

Python mapping conventions:
* an `AWSResource` dataclass becomes a structure with the same fields
  (the Python `metadata` dict is carried as an opaque association list);
* a Python `set` of strings is carried as a duplicate-free list; only
  membership tests and `remove` are performed on it, so the representation
  order is irrelevant to the computation;
* a raised exception (`set.remove` / `list.remove` on a missing element)
  is the `PyResult.exn` outcome;
* the unbounded `while remaining:` loop runs on explicit fuel
  (`PyResult.outOfFuel` marks exhaustion); the entry point supplies fuel
  `|selection|`, and termination is the theorem that this fuel is never
  exhausted.
-/

/-- Embedding of the `ResourceState` enum of `core/models.py`. -/
inductive ResourceState where
  | running
  | stopped
  | pending
  | terminated
  | available
  | deleting
  | unknown
  deriving DecidableEq, Repr

/-- Embedding of the `AWSResource` dataclass of `core/models.py`. -/
structure AWSResource where
  service : String
  resource_type : String
  identifier : String
  name : String
  region : String
  dependencies : List String := []
  dependents : List String := []
  metadata : List (String × String) := []
  state : ResourceState := ResourceState.unknown
  deriving DecidableEq, Repr

/-- Outcome of running a Python procedure: normal return, a raised
exception, or exhaustion of the explicit loop fuel. -/
inductive PyResult (α : Type) where
  | ok (val : α) : PyResult α
  | exn : PyResult α
  | outOfFuel : PyResult α
  deriving DecidableEq, Repr

/-- Python `list.remove(x)`: drop the first element equal to `x`;
raises `ValueError` (`none`) when `x` is absent. -/
def pyListRemove (xs : List AWSResource) (x : AWSResource) : Option (List AWSResource) :=
  if x ∈ xs then some (xs.erase x) else none

/-- Python `set.remove(x)` on a set of strings (carried as a
duplicate-free list): drop `x`; raises `KeyError` (`none`) when `x` is
absent. -/
def pySetRemove (s : List String) (x : String) : Option (List String) :=
  if x ∈ s then some (s.filter (fun y => y ≠ x)) else none

/-- The body of `for resource in can_delete: remaining.remove(resource);
remaining_ids.remove(resource.identifier)` in `get_deletion_order`. -/
def removeAll :
    List AWSResource → List String → List AWSResource →
      Option (List AWSResource × List String)
  | remaining, remaining_ids, [] => some (remaining, remaining_ids)
  | remaining, remaining_ids, r :: rest =>
    match pyListRemove remaining r with
    | none => none
    | some remaining' =>
      match pySetRemove remaining_ids r.identifier with
      | none => none
      | some remaining_ids' => removeAll remaining' remaining_ids' rest

/-- The `can_delete` list comprehension of `get_deletion_order`: records of
`remaining` having no dependent id inside `remaining_ids`. -/
def can_delete_of (remaining : List AWSResource) (remaining_ids : List String) :
    List AWSResource :=
  remaining.filter fun r =>
    ! r.dependents.any fun dep_id => remaining_ids.contains dep_id

/-- The records removed in one round of `get_deletion_order`: the eligible
records, or — cycle deadlock — the first remaining record. -/
def round_delete (remaining : List AWSResource) (remaining_ids : List String) :
    List AWSResource :=
  if can_delete_of remaining remaining_ids = [] then remaining.take 1
  else can_delete_of remaining remaining_ids

/-- Number of circular-dependency warnings printed in one round of
`get_deletion_order` (1 exactly when the deadlock branch is taken). -/
def round_warn (remaining : List AWSResource) (remaining_ids : List String) : Nat :=
  if can_delete_of remaining remaining_ids = [] then 1 else 0

/-- The `while remaining:` loop of `get_deletion_order`, on explicit fuel.
Returns the accumulated deletion order together with the number of
circular-dependency warnings printed. -/
def orderLoop :
    Nat → List AWSResource → List String → PyResult (List AWSResource × Nat)
  | _, [], _ => .ok ([], 0)
  | 0, _ :: _, _ => .outOfFuel
  | fuel + 1, r0 :: rest, remaining_ids =>
    match removeAll (r0 :: rest) remaining_ids (round_delete (r0 :: rest) remaining_ids) with
    | none => .exn
    | some state' =>
      match orderLoop fuel state'.1 state'.2 with
      | .ok res =>
        .ok (round_delete (r0 :: rest) remaining_ids ++ res.1,
             round_warn (r0 :: rest) remaining_ids + res.2)
      | .exn => .exn
      | .outOfFuel => .outOfFuel

/-- Embedding of `ResourceDiscovery.get_deletion_order`
(`core/discovery.py`).  `remaining_ids` starts as the identifier set of the
selection (`List.dedup` realises the Python set comprehension). -/
def get_deletion_order (selected_resources : List AWSResource) :
    PyResult (List AWSResource × Nat) :=
  orderLoop selected_resources.length selected_resources
    ((selected_resources.map fun r => r.identifier).dedup)

/-- `for resource in can_delete: remaining.remove(resource)` of the legacy
loop in `aws_cleanup.py` (no identifier set is maintained there). -/
def legacyRemoveAll :
    List AWSResource → List AWSResource → Option (List AWSResource)
  | remaining, [] => some remaining
  | remaining, r :: rest =>
    match pyListRemove remaining r with
    | none => none
    | some remaining' => legacyRemoveAll remaining' rest

/-- The `while remaining:` ordering loop inlined in
`InteractiveCleanup.delete_resources` (`aws_cleanup.py`).  The eligibility
test recomputes `[r.identifier for r in remaining]` on each round instead
of maintaining a separate id set. -/
def legacyLoop : Nat → List AWSResource → PyResult (List AWSResource)
  | _, [] => .ok []
  | 0, _ :: _ => .outOfFuel
  | fuel + 1, r0 :: rest =>
    match legacyRemoveAll (r0 :: rest)
        (round_delete (r0 :: rest) ((r0 :: rest).map fun r => r.identifier)) with
    | none => .exn
    | some remaining' =>
      match legacyLoop fuel remaining' with
      | .ok res =>
        .ok (round_delete (r0 :: rest) ((r0 :: rest).map fun r => r.identifier) ++ res)
      | .exn => .exn
      | .outOfFuel => .outOfFuel

/-- The deletion-order computation of the legacy
`InteractiveCleanup.delete_resources`. -/
def delete_resources_order (selected_resources : List AWSResource) :
    PyResult (List AWSResource) :=
  legacyLoop selected_resources.length selected_resources

/-- Forget the warning counter of `get_deletion_order`, keeping the
computed order, for comparison with the legacy loop. -/
def resultOrder :
    PyResult (List AWSResource × Nat) → PyResult (List AWSResource)
  | .ok res => .ok res.1
  | .exn => .exn
  | .outOfFuel => .outOfFuel

/-- `{r with dependents := []}`: the effect of `resource.dependents.clear()`
in `_build_dependency_map`. -/
def clearDependents (r : AWSResource) : AWSResource :=
  { r with dependents := [] }

/-- `resource_map[dep_id].dependents.append(rid)`: the dict
`resource_map = {r.identifier: r for r in resources}` maps each identifier
to the LAST record carrying it (later comprehension entries overwrite
earlier ones), so the append lands on the last occurrence. -/
def updateLast : List AWSResource → String → String → List AWSResource
  | [], _, _ => []
  | x :: xs, dep_id, rid =>
    if dep_id ∈ xs.map (fun r => r.identifier) then x :: updateLast xs dep_id rid
    else if x.identifier = dep_id then
      { x with dependents := x.dependents ++ [rid] } :: xs
    else x :: xs

/-- One inner-loop step of `_build_dependency_map`:
`if dep_id in resource_map: resource_map[dep_id].dependents.append(r.identifier)`;
`keys` is the (fixed) key set of `resource_map`. -/
def build_step (keys : List String) (store : List AWSResource)
    (rid dep_id : String) : List AWSResource :=
  if dep_id ∈ keys then updateLast store dep_id rid else store

/-- Embedding of `ResourceDiscovery._build_dependency_map`
(`core/discovery.py`); the Python method mutates the records in place, the
embedding returns the catalog list after the call. -/
def build_dependency_map (resources : List AWSResource) : List AWSResource :=
  resources.foldl
    (fun store r =>
      r.dependencies.foldl
        (fun st dep_id => build_step (resources.map fun q => q.identifier) st r.identifier dep_id)
        store)
    (resources.map clearDependents)

/-- All `(r.identifier, dep_id)` pairs walked by the two nested loops of
`_build_dependency_map`, in iteration order. -/
def depPairs (resources : List AWSResource) : List (String × String) :=
  resources.flatMap fun r => r.dependencies.map fun dep_id => (r.identifier, dep_id)

/-!
Concrete resource records used as executable test inputs for the
witnesses and counterexamples below.
-/

/-- A record with identifier `dup` (an EC2 instance). -/
def dupA : AWSResource :=
  { service := "ec2", resource_type := "instance", identifier := "dup",
    name := "first", region := "us-east-1" }

/-- A different record carrying the same identifier `dup` (an EBS volume):
`identifier` values collide across services in the Python data model. -/
def dupB : AWSResource :=
  { service := "ec2", resource_type := "volume", identifier := "dup",
    name := "second", region := "us-east-1" }

/-- First half of a two-cycle: `A` and `B` list each other as dependents. -/
def cycA : AWSResource :=
  { service := "ec2", resource_type := "security-group", identifier := "A",
    name := "sgA", region := "us-east-1", dependencies := ["B"], dependents := ["B"] }

/-- Second half of the two-cycle. -/
def cycB : AWSResource :=
  { service := "ec2", resource_type := "security-group", identifier := "B",
    name := "sgB", region := "us-east-1", dependencies := ["A"], dependents := ["A"] }

/-- A VPC whose dependent is the subnet `sub-1`. -/
def selVpc : AWSResource :=
  { service := "ec2", resource_type := "vpc", identifier := "vpc-1",
    name := "VPC", region := "us-east-1", dependents := ["sub-1"] }

/-- A subnet depending on the VPC `vpc-1`. -/
def selSubnet : AWSResource :=
  { service := "ec2", resource_type := "subnet", identifier := "sub-1",
    name := "Subnet", region := "us-east-1", dependencies := ["vpc-1"] }

/-- Catalog record `a` (no declared dependencies). -/
def catA : AWSResource :=
  { service := "ec2", resource_type := "vpc", identifier := "a",
    name := "A", region := "us-east-1" }

/-- Catalog record `b`, depending on `a`. -/
def catB : AWSResource :=
  { service := "ec2", resource_type := "instance", identifier := "b",
    name := "B", region := "us-east-1", dependencies := ["a"] }

/-- Catalog record whose dependencies list names `a` twice. -/
def catDupDep : AWSResource :=
  { service := "ec2", resource_type := "instance", identifier := "b",
    name := "B", region := "us-east-1", dependencies := ["a", "a"] }

/-- The value of `catA` after `_build_dependency_map [catA, catB]`:
`catB` depends on `a`, so `catA` gains the dependent `b`. -/
def builtCatA : AWSResource :=
  { service := "ec2", resource_type := "vpc", identifier := "a",
    name := "A", region := "us-east-1", dependents := ["b"] }

/-- Catalog record `i`. -/
def catGhostI : AWSResource :=
  { service := "ec2", resource_type := "instance", identifier := "i",
    name := "I", region := "us-east-1" }

/-- Catalog record `v`, with one dependency present in the catalog (`i`)
and one dangling reference (`ghost`, absent from the catalog). -/
def catGhostV : AWSResource :=
  { service := "ec2", resource_type := "vpc", identifier := "v",
    name := "V", region := "us-east-1", dependencies := ["i", "ghost"] }


theorem pyListRemove_of_mem {xs : List AWSResource} {x : AWSResource} (h : x ∈ xs) :
    pyListRemove xs x = some (xs.erase x) := by
  simp [pyListRemove, h]

theorem pySetRemove_of_mem {s : List String} {x : String} (h : x ∈ s) :
    pySetRemove s x = some (s.filter fun y => y ≠ x) := by
  simp [pySetRemove, h]

theorem map_erase_of_nodup :
    ∀ (l : List AWSResource) (r : AWSResource),
      ((l.map fun x => x.identifier).Nodup) → r ∈ l →
      ((l.erase r).map fun x => x.identifier)
        = (l.map fun x => x.identifier).filter fun y => y ≠ r.identifier := by
  intro l r hnd hr
  induction l with
  | nil => cases hr
  | cons x xs ih =>
    simp only [List.map_cons, List.nodup_cons] at hnd
    by_cases hxr : x = r
    · subst hxr
      rw [List.erase_cons_head, List.map_cons, List.filter_cons_of_neg (by simp),
        List.filter_eq_self.mpr]
      intro a ha
      have hne : a ≠ x.identifier := fun he => hnd.1 (he ▸ ha)
      simpa using hne
    · have hr' : r ∈ xs := by
        rcases List.mem_cons.mp hr with h | h
        · exact absurd h.symm hxr
        · exact h
      have hxid : x.identifier ≠ r.identifier := fun he =>
        hnd.1 (he ▸ List.mem_map_of_mem _ hr')
      rw [List.erase_cons_tail (by simpa using hxr), List.map_cons, List.map_cons,
        List.filter_cons_of_pos (by simpa using hxid), ih hnd.2 hr']

theorem removeAll_ok :
    ∀ (cd rem : List AWSResource), cd.Nodup → (∀ x ∈ cd, x ∈ rem) →
      ((rem.map fun r => r.identifier).Nodup) →
      ∃ rem', removeAll rem (rem.map fun r => r.identifier) cd
          = some (rem', rem'.map fun r => r.identifier)
        ∧ ((rem'.map fun r => r.identifier).Nodup)
        ∧ rem.Perm (cd ++ rem')
        ∧ rem'.length + cd.length = rem.length := by
  intro cd
  induction cd with
  | nil =>
    intro rem _ _ hnd
    exact ⟨rem, rfl, hnd, by simp, by simp⟩
  | cons r cd' ih =>
    intro rem hcd hsub hnd
    have hr : r ∈ rem := hsub r (by simp)
    have hrid : r.identifier ∈ rem.map (fun q => q.identifier) :=
      List.mem_map_of_mem _ hr
    have hnd' : (((rem.erase r).map fun q => q.identifier)).Nodup :=
      List.Nodup.sublist (List.Sublist.map _ (List.erase_sublist r rem)) hnd
    have hsub' : ∀ x ∈ cd', x ∈ rem.erase r := by
      intro x hx
      have hxr : x ≠ r := by
        intro he
        exact (List.nodup_cons.mp hcd).1 (he ▸ hx)
      exact (List.mem_erase_of_ne hxr).mpr (hsub x (List.mem_cons_of_mem _ hx))
    obtain ⟨rem', heq, hnd'', hperm, hlen⟩ :=
      ih (rem.erase r) (List.nodup_cons.mp hcd).2 hsub' hnd'
    refine ⟨rem', ?_, hnd'', ?_, ?_⟩
    · rw [removeAll, pyListRemove_of_mem hr, pySetRemove_of_mem hrid]
      rw [map_erase_of_nodup rem r hnd hr] at heq
      exact heq
    · exact (List.perm_cons_erase hr).trans (List.Perm.cons r hperm)
    · have h1 : (rem.erase r).length = rem.length - 1 := List.length_erase_of_mem hr
      have h2 : 0 < rem.length := List.length_pos_of_mem hr
      simp only [List.length_cons]
      omega

theorem removeAll_length :
    ∀ (cd rem rem' : List AWSResource) (ids ids' : List String),
      removeAll rem ids cd = some (rem', ids') →
      rem'.length + cd.length = rem.length := by
  intro cd
  induction cd with
  | nil =>
    intro rem rem' ids ids' h
    simp only [removeAll, Option.some.injEq, Prod.mk.injEq] at h
    simp [← h.1]
  | cons r cd' ih =>
    intro rem rem' ids ids' h
    rw [removeAll] at h
    cases h1 : pyListRemove rem r with
    | none => rw [h1] at h; cases h
    | some rem1 =>
      rw [h1] at h
      cases h2 : pySetRemove ids r.identifier with
      | none => rw [h2] at h; cases h
      | some ids1 =>
        rw [h2] at h
        have hmem : r ∈ rem ∧ rem1 = rem.erase r := by
          by_cases hr : r ∈ rem
          · refine ⟨hr, ?_⟩
            rw [pyListRemove_of_mem hr] at h1
            exact (Option.some.injEq _ _ ▸ h1).symm
          · simp [pyListRemove, hr] at h1
        have hlen1 : rem1.length = rem.length - 1 := by
          rw [hmem.2]; exact List.length_erase_of_mem hmem.1
        have hpos : 0 < rem.length := List.length_pos_of_mem hmem.1
        have := ih rem1 rem' ids1 ids' h
        simp only [List.length_cons]
        omega

theorem round_delete_ne_nil (r0 : AWSResource) (rest : List AWSResource)
    (ids : List String) : round_delete (r0 :: rest) ids ≠ [] := by
  unfold round_delete
  split
  · simp
  · assumption

theorem orderLoop_no_fuel_exhaustion :
    ∀ (fuel : Nat) (rem : List AWSResource) (ids : List String),
      rem.length ≤ fuel → orderLoop fuel rem ids ≠ .outOfFuel := by
  intro fuel
  induction fuel with
  | zero =>
    intro rem ids hlen
    cases rem with
    | nil => simp [orderLoop]
    | cons r rest => simp at hlen
  | succ f ih =>
    intro rem ids hlen
    cases rem with
    | nil => simp [orderLoop]
    | cons r0 rest =>
      rw [orderLoop]
      cases hra : removeAll (r0 :: rest) ids (round_delete (r0 :: rest) ids) with
      | none => simp
      | some st =>
        have hlen2 : st.1.length ≤ f := by
          have heq := removeAll_length _ _ _ _ _ (by rw [hra])
          have hpos : 0 < (round_delete (r0 :: rest) ids).length :=
            List.length_pos.mpr (round_delete_ne_nil r0 rest ids)
          simp only [List.length_cons] at heq hlen ⊢
          omega
        cases hloop : orderLoop f st.1 st.2 with
        | ok res => simp [hloop]
        | exn => simp [hloop]
        | outOfFuel => exact absurd hloop (ih st.1 st.2 hlen2)

theorem round_delete_nodup (rem : List AWSResource) (ids : List String)
    (hnd : rem.Nodup) : (round_delete rem ids).Nodup := by
  unfold round_delete
  split
  · exact List.Nodup.sublist (List.take_sublist _ _) hnd
  · exact List.Nodup.filter _ hnd

theorem round_delete_subset (rem : List AWSResource) (ids : List String) :
    ∀ x ∈ round_delete rem ids, x ∈ rem := by
  unfold round_delete
  split
  · intro x hx; exact List.take_subset _ _ hx
  · intro x hx; exact List.mem_of_mem_filter hx

theorem orderLoop_ok :
    ∀ (fuel : Nat) (rem : List AWSResource),
      ((rem.map fun r => r.identifier).Nodup) → rem.length ≤ fuel →
      ∃ ord w, orderLoop fuel rem (rem.map fun r => r.identifier) = .ok (ord, w)
        ∧ ord.Perm rem := by
  intro fuel
  induction fuel with
  | zero =>
    intro rem hnd hlen
    cases rem with
    | nil => exact ⟨[], 0, rfl, List.Perm.refl _⟩
    | cons r rest => simp at hlen
  | succ f ih =>
    intro rem hnd hlen
    cases rem with
    | nil => exact ⟨[], 0, rfl, List.Perm.refl _⟩
    | cons r0 rest =>
      have hrec : ((r0 :: rest).Nodup) := List.Nodup.of_map _ hnd
      have hcdn : (round_delete (r0 :: rest) ((r0 :: rest).map fun r => r.identifier)).Nodup :=
        round_delete_nodup _ _ hrec
      have hcds := round_delete_subset (r0 :: rest) ((r0 :: rest).map fun r => r.identifier)
      obtain ⟨rem', heq, hnd', hperm, hlen'⟩ := removeAll_ok _ _ hcdn hcds hnd
      have hcdpos : 0 < (round_delete (r0 :: rest) ((r0 :: rest).map fun r => r.identifier)).length :=
        List.length_pos.mpr (round_delete_ne_nil _ _ _)
      have hlen2 : rem'.length ≤ f := by
        simp only [List.length_cons] at hlen hlen'
        omega
      obtain ⟨ord', w', heq2, hperm2⟩ := ih rem' hnd' hlen2
      refine ⟨round_delete (r0 :: rest) ((r0 :: rest).map fun r => r.identifier) ++ ord',
        round_warn (r0 :: rest) ((r0 :: rest).map fun r => r.identifier) + w', ?_, ?_⟩
      · rw [orderLoop, heq]
        simp only
        rw [heq2]
      · exact (List.Perm.append_left _ hperm2).trans hperm.symm

/-- `get_deletion_order` succeeds and permutes its input whenever the
selected records carry pairwise-distinct identifiers. -/
theorem gdo_ok_of_nodup (S : List AWSResource)
    (hnd : (S.map fun r => r.identifier).Nodup) :
    ∃ ord w, get_deletion_order S = .ok (ord, w) ∧ ord.Perm S := by
  unfold get_deletion_order
  rw [List.dedup_eq_self.mpr hnd]
  exact orderLoop_ok S.length S hnd (le_refl _)

/-- C2 (counterexample): for the selection `[dupA, dupB]` — two records
sharing the identifier `dup` — `get_deletion_order` raises (the second
`remaining_ids.remove` hits an already-removed key, a `KeyError`), so it
does not return a permutation of the selection. -/
theorem c2_counterexample :
    get_deletion_order [dupA, dupB] = .exn
    ∧ ¬ ∃ ord w, get_deletion_order [dupA, dupB] = .ok (ord, w)
        ∧ ord.Perm [dupA, dupB] := by
  refine ⟨by decide, ?_⟩
  rintro ⟨ord, w, h, -⟩
  rw [show get_deletion_order [dupA, dupB] = .exn by decide] at h
  cases h

/-- C2 (amended): for every selection whose records carry pairwise-distinct
identifiers, `get_deletion_order` returns normally with a permutation of
the selection (same length, same multiset); in particular the empty
selection yields the empty sequence without raising. -/
theorem c2_deletion_order_is_permutation (S : List AWSResource)
    (hnd : (S.map fun r => r.identifier).Nodup) :
    (∃ ord w, get_deletion_order S = .ok (ord, w) ∧ ord.Perm S)
    ∧ get_deletion_order [] = .ok ([], 0) :=
  ⟨gdo_ok_of_nodup S hnd, rfl⟩

/-- C2 (witness): the amended theorem applied to the concrete two-record
selection `[selSubnet, selVpc]`. -/
theorem c2_witness :
    (∃ ord w, get_deletion_order [selSubnet, selVpc] = .ok (ord, w)
      ∧ ord.Perm [selSubnet, selVpc])
    ∧ get_deletion_order [] = .ok ([], 0) :=
  c2_deletion_order_is_permutation [selSubnet, selVpc] (by decide)

/-- C3: `get_deletion_order` never exhausts its fuel of `|S|` outer-loop
rounds: every round removes at least one record from `remaining`, so the
loop terminates on every finite selection, cycles included. -/
theorem c3_terminates (S : List AWSResource) :
    get_deletion_order S ≠ .outOfFuel :=
  orderLoop_no_fuel_exhaustion S.length S _ (le_refl _)

/-- C4 (counterexample): `get_deletion_order` does raise for the selection
`[dupA, dupB]` whose two records share an identifier: the second
`remaining_ids.remove("dup")` raises `KeyError`. -/
theorem c4_counterexample : get_deletion_order [dupA, dupB] = .exn := by
  decide

/-- C4 (amended): (1) for selections with pairwise-distinct identifiers
`get_deletion_order` never raises; (2) whenever a round finds no eligible
record while records remain, the round emits exactly the first remaining
record (in original order) as a forced step and counts one warning, so the
final warning count is positive; (3) for the 2-cycle `[cycA, cycB]` with
`cycA` listed first, the output begins with `cycA` (and is `[cycA, cycB]`
with one warning). -/
theorem c4_cycle_fallback :
    (∀ S : List AWSResource, ((S.map fun r => r.identifier).Nodup) →
      ∃ ord w, get_deletion_order S = .ok (ord, w))
    ∧ (∀ (fuel : Nat) (r0 : AWSResource) (rest : List AWSResource)
        (ids : List String) (ord : List AWSResource) (w : Nat),
        can_delete_of (r0 :: rest) ids = [] →
        orderLoop (fuel + 1) (r0 :: rest) ids = .ok (ord, w) →
        (∃ t, ord = r0 :: t) ∧ 1 ≤ w)
    ∧ get_deletion_order [cycA, cycB] = .ok ([cycA, cycB], 1) := by
  refine ⟨?_, ?_, by decide⟩
  · intro S hnd
    obtain ⟨ord, w, heq, -⟩ := gdo_ok_of_nodup S hnd
    exact ⟨ord, w, heq⟩
  · intro fuel r0 rest ids ord w hempty heq
    have hrd : round_delete (r0 :: rest) ids = [r0] := by
      rw [round_delete, if_pos hempty]
      rfl
    have h1 : pyListRemove (r0 :: rest) r0 = some rest := by
      simp [pyListRemove]
    rw [orderLoop, hrd, removeAll, h1] at heq
    cases h2 : pySetRemove ids r0.identifier with
    | none => rw [h2] at heq; cases heq
    | some ids1 =>
      rw [h2] at heq
      simp only [removeAll] at heq
      cases h3 : orderLoop fuel rest ids1 with
      | ok res =>
        rw [h3] at heq
        simp only [PyResult.ok.injEq, Prod.mk.injEq] at heq
        refine ⟨⟨res.1, heq.1.symm⟩, ?_⟩
        rw [round_warn, if_pos hempty] at heq
        omega
      | exn => rw [h3] at heq; cases heq
      | outOfFuel => rw [h3] at heq; cases heq

/-- C4 (witness): the amended theorem applied at the 2-cycle
`[cycA, cycB]`: part (1) at that selection, part (2) at the first round of
its run (`fuel = 1`, deadlocked round, result `([cycA, cycB], 1)`). -/
theorem c4_witness :
    (∃ ord w, get_deletion_order [cycA, cycB] = .ok (ord, w))
    ∧ ((∃ t, [cycA, cycB] = cycA :: t) ∧ 1 ≤ 1) :=
  ⟨c4_cycle_fallback.1 [cycA, cycB] (by decide),
   c4_cycle_fallback.2.1 1 cycA [cycB] ["A", "B"] [cycA, cycB] 1
     (by decide) (by decide)⟩

theorem mem_can_delete_iff (rem : List AWSResource) (a : AWSResource) :
    a ∈ can_delete_of rem (rem.map fun r => r.identifier)
      ↔ a ∈ rem ∧ ∀ s ∈ rem, s.identifier ∉ a.dependents := by
  rw [can_delete_of, List.mem_filter]
  constructor
  · rintro ⟨h1, h2⟩
    refine ⟨h1, ?_⟩
    intro s hs hmem
    rw [Bool.not_eq_true', List.any_eq_false] at h2
    have hcon : (rem.map fun r => r.identifier).contains s.identifier = true := by
      rw [List.contains, List.elem_iff]
      exact List.mem_map_of_mem _ hs
    exact h2 s.identifier hmem hcon
  · rintro ⟨h1, h2⟩
    refine ⟨h1, ?_⟩
    rw [Bool.not_eq_true', List.any_eq_false]
    intro d hd hcon
    rw [List.contains, List.elem_iff] at hcon
    obtain ⟨s, hs, rfl⟩ := List.mem_map.mp hcon
    exact h2 s hs hd

/-- In a finite nonempty collection of records whose dependents edges have
no cycle, some record has no dependent inside the collection. -/
theorem exists_sink (T : List AWSResource) (hne : T ≠ [])
    (hacy : ∀ r ∈ T, ¬ Relation.TransGen
      (fun a b => a ∈ T ∧ b ∈ T ∧ b.identifier ∈ a.dependents) r r) :
    ∃ r ∈ T, ∀ s ∈ T, s.identifier ∉ r.dependents := by
  haveI : Finite {x : AWSResource // x ∈ T} := (List.finite_toSet T).to_subtype
  let R : {x : AWSResource // x ∈ T} → {x : AWSResource // x ∈ T} → Prop := fun a b =>
    b.val ∈ T ∧ a.val ∈ T ∧ a.val.identifier ∈ b.val.dependents
  have hproj : ∀ a b, Relation.TransGen R a b →
      Relation.TransGen
        (fun a b => a ∈ T ∧ b ∈ T ∧ b.identifier ∈ a.dependents) b.val a.val := by
    intro a b h
    induction h with
    | single h => exact Relation.TransGen.single h
    | tail _ h ihh => exact Relation.TransGen.head h ihh
  haveI : IsIrrefl {x : AWSResource // x ∈ T} (Relation.TransGen R) := by
    constructor
    intro a ha
    exact hacy a.val a.property (hproj a a ha)
  have hwf : WellFounded (Relation.TransGen R) :=
    Finite.wellFounded_of_trans_of_irrefl _
  obtain ⟨t, ht⟩ := List.exists_mem_of_ne_nil T hne
  obtain ⟨m, -, hmin⟩ := hwf.has_min Set.univ ⟨⟨t, ht⟩, trivial⟩
  refine ⟨m.val, m.property, ?_⟩
  intro s hs hmem
  exact hmin ⟨s, hs⟩ trivial (Relation.TransGen.single ⟨m.property, hs, hmem⟩)

theorem transGen_edge_mono {T S : List AWSResource} (hTS : ∀ x ∈ T, x ∈ S)
    {a b : AWSResource} :
    Relation.TransGen (fun a b => a ∈ T ∧ b ∈ T ∧ b.identifier ∈ a.dependents) a b →
    Relation.TransGen (fun a b => a ∈ S ∧ b ∈ S ∧ b.identifier ∈ a.dependents) a b :=
  Relation.TransGen.mono fun x y h => ⟨hTS x h.1, hTS y h.2.1, h.2.2⟩

/-- Any dependents-edge-decreasing rank function certifies acyclicity. -/
theorem no_cycle_of_rank {S : List AWSResource} (f : AWSResource → Nat)
    (hf : ∀ a ∈ S, ∀ b ∈ S, b.identifier ∈ a.dependents → f b < f a) :
    ∀ r ∈ S, ¬ Relation.TransGen
      (fun a b => a ∈ S ∧ b ∈ S ∧ b.identifier ∈ a.dependents) r r := by
  have key : ∀ a b : AWSResource,
      Relation.TransGen (fun a b => a ∈ S ∧ b ∈ S ∧ b.identifier ∈ a.dependents) a b →
      f b < f a := by
    intro a b h
    induction h with
    | single h => exact hf _ h.1 _ h.2.1 h.2.2
    | tail _ h ihh => exact lt_trans (hf _ h.1 _ h.2.1 h.2.2) ihh
  intro r _ hc
  exact lt_irrefl _ (key r r hc)

theorem orderLoop_pairwise :
    ∀ (fuel : Nat) (rem S ord : List AWSResource) (w : Nat),
      ((rem.map fun r => r.identifier).Nodup) →
      (∀ x ∈ rem, x ∈ S) →
      (∀ T : List AWSResource, T ≠ [] → (∀ x ∈ T, x ∈ S) →
        ∃ r ∈ T, ∀ s ∈ T, s.identifier ∉ r.dependents) →
      orderLoop fuel rem (rem.map fun r => r.identifier) = .ok (ord, w) →
      List.Pairwise (fun a b => b.identifier ∉ a.dependents) ord
        ∧ (∀ r ∈ ord, r.identifier ∉ r.dependents)
        ∧ (∀ r ∈ ord, r ∈ rem) := by
  intro fuel
  induction fuel with
  | zero =>
    intro rem S ord w hnd hsub hsink heq
    cases rem with
    | nil =>
      simp only [orderLoop, PyResult.ok.injEq, Prod.mk.injEq] at heq
      rw [← heq.1]
      exact ⟨List.Pairwise.nil, by simp, by simp⟩
    | cons r0 rest => rw [orderLoop] at heq; cases heq
  | succ f ih =>
    intro rem S ord w hnd hsub hsink heq
    cases rem with
    | nil =>
      simp only [orderLoop, PyResult.ok.injEq, Prod.mk.injEq] at heq
      rw [← heq.1]
      exact ⟨List.Pairwise.nil, by simp, by simp⟩
    | cons r0 rest =>
      have hne : can_delete_of (r0 :: rest) ((r0 :: rest).map fun r => r.identifier) ≠ [] := by
        obtain ⟨r, hrT, hrs⟩ := hsink (r0 :: rest) (by simp) hsub
        intro h0
        have hmem : r ∈ can_delete_of (r0 :: rest) ((r0 :: rest).map fun q => q.identifier) :=
          (mem_can_delete_iff _ _).mpr ⟨hrT, hrs⟩
        rw [h0] at hmem
        cases hmem
      have hrd : round_delete (r0 :: rest) ((r0 :: rest).map fun r => r.identifier)
          = can_delete_of (r0 :: rest) ((r0 :: rest).map fun r => r.identifier) := by
        rw [round_delete, if_neg hne]
      have hrec : (r0 :: rest).Nodup := List.Nodup.of_map _ hnd
      obtain ⟨rem', hra, hnd', hperm, -⟩ :=
        removeAll_ok (round_delete (r0 :: rest) ((r0 :: rest).map fun r => r.identifier))
          (r0 :: rest) (round_delete_nodup _ _ hrec) (round_delete_subset _ _) hnd
      rw [orderLoop, hra] at heq
      simp only at heq
      cases h3 : orderLoop f rem' (rem'.map fun r => r.identifier) with
      | ok res =>
        rw [h3] at heq
        simp only [PyResult.ok.injEq, Prod.mk.injEq] at heq
        obtain ⟨hord, -⟩ := heq
        have hsub' : ∀ x ∈ rem', x ∈ S := fun x hx =>
          hsub x (hperm.symm.subset (List.mem_append_right _ hx))
        obtain ⟨hpw', hdiag', hmem'⟩ := ih rem' S res.1 res.2 hnd' hsub' hsink h3
        have helig : ∀ a ∈ round_delete (r0 :: rest) ((r0 :: rest).map fun r => r.identifier),
            a ∈ (r0 :: rest) ∧ ∀ s ∈ (r0 :: rest), s.identifier ∉ a.dependents := by
          intro a ha
          rw [hrd] at ha
          exact (mem_can_delete_iff _ _).mp ha
        have hmem'' : ∀ r ∈ res.1, r ∈ (r0 :: rest) := fun r hr =>
          hperm.symm.subset (List.mem_append_right _ (hmem' r hr))
        rw [← hord]
        refine ⟨?_, ?_, ?_⟩
        · rw [List.pairwise_append]
          refine ⟨?_, hpw', ?_⟩
          · exact List.pairwise_of_forall_mem_list fun a ha b hb =>
              (helig a ha).2 b (helig b hb).1
          · intro a ha b hb
            exact (helig a ha).2 b (hmem'' b hb)
        · intro r hr
          rcases List.mem_append.mp hr with h | h
          · exact (helig r h).2 r (helig r h).1
          · exact hdiag' r h
        · intro r hr
          rcases List.mem_append.mp hr with h | h
          · exact (helig r h).1
          · exact hmem'' r h
      | exn => rw [h3] at heq; cases heq
      | outOfFuel => rw [h3] at heq; cases heq

/-- C1: for every selection with pairwise-distinct identifiers whose
dependents edges (restricted to the selection) form no cycle,
`get_deletion_order` succeeds and, in the returned sequence, every record
whose dependents list names another selected record appears strictly after
that record (the dependent occupies an earlier index). -/
theorem c1_acyclic_ordering (S : List AWSResource)
    (hnd : (S.map fun r => r.identifier).Nodup)
    (hacy : ∀ r ∈ S, ¬ Relation.TransGen
      (fun a b => a ∈ S ∧ b ∈ S ∧ b.identifier ∈ a.dependents) r r) :
    ∃ ord w, get_deletion_order S = .ok (ord, w)
      ∧ ∀ (i j : Nat) (hi : i < ord.length) (hj : j < ord.length),
          (ord.get ⟨j, hj⟩).identifier ∈ (ord.get ⟨i, hi⟩).dependents → j < i := by
  obtain ⟨ord, w, heq, -⟩ := gdo_ok_of_nodup S hnd
  have heq' : orderLoop S.length S (S.map fun r => r.identifier) = .ok (ord, w) := by
    rw [← List.dedup_eq_self.mpr hnd]
    exact heq
  have hsink : ∀ T : List AWSResource, T ≠ [] → (∀ x ∈ T, x ∈ S) →
      ∃ r ∈ T, ∀ s ∈ T, s.identifier ∉ r.dependents := by
    intro T hne hTS
    refine exists_sink T hne ?_
    intro r hr hcyc
    exact hacy r (hTS r hr) (transGen_edge_mono hTS hcyc)
  obtain ⟨hpw, hdiag, -⟩ :=
    orderLoop_pairwise S.length S S ord w hnd (fun x h => h) hsink heq'
  refine ⟨ord, w, heq, ?_⟩
  intro i j hi hj hmem
  by_contra hlt
  rcases Nat.lt_or_ge j i with h | h
  · exact hlt h
  rcases Nat.eq_or_lt_of_le h with h | h
  · have hget : ord.get ⟨i, hi⟩ = ord.get ⟨j, hj⟩ := by
      congr 1
      exact Fin.ext h
    rw [hget] at hmem
    exact hdiag _ (ord.get_mem _ _) hmem
  · have := List.pairwise_iff_get.mp hpw ⟨i, hi⟩ ⟨j, hj⟩ h
    exact this hmem

/-- C1 (witness): the theorem applied to the concrete acyclic selection
`[selSubnet, selVpc]` (subnet depends on vpc), acyclicity being certified
by the rank function vpc outranks subnet. -/
theorem c1_witness :
    ∃ ord w, get_deletion_order [selSubnet, selVpc] = .ok (ord, w)
      ∧ ∀ (i j : Nat) (hi : i < ord.length) (hj : j < ord.length),
          (ord.get ⟨j, hj⟩).identifier ∈ (ord.get ⟨i, hi⟩).dependents → j < i :=
  c1_acyclic_ordering [selSubnet, selVpc] (by decide)
    (no_cycle_of_rank (fun r => if r.identifier = "vpc-1" then 1 else 0) (by decide))

theorem updateLast_map_clear (st : List AWSResource) (dep_id rid : String) :
    (updateLast st dep_id rid).map clearDependents = st.map clearDependents := by
  induction st with
  | nil => rfl
  | cons x xs ih =>
    rw [updateLast]
    split
    · rw [List.map_cons, List.map_cons, ih]
    · split
      · rfl
      · rfl

theorem updateLast_map_identifier (st : List AWSResource) (dep_id rid : String) :
    (updateLast st dep_id rid).map (fun r => r.identifier)
      = st.map fun r => r.identifier := by
  induction st with
  | nil => rfl
  | cons x xs ih =>
    rw [updateLast]
    split
    · rw [List.map_cons, List.map_cons, ih]
    · split
      · rfl
      · rfl

/-- The effect of one append on one record: touched exactly when its
identifier is the targeted `dep_id`. -/
def appendDependent (dep_id rid : String) (x : AWSResource) : AWSResource :=
  if x.identifier = dep_id then { x with dependents := x.dependents ++ [rid] } else x

theorem map_appendDependent_id (l : List AWSResource) (dep_id rid : String)
    (h : dep_id ∉ l.map fun r => r.identifier) :
    l.map (appendDependent dep_id rid) = l := by
  induction l with
  | nil => rfl
  | cons y ys ih =>
    rw [List.map_cons]
    have h1 : y.identifier ≠ dep_id := by
      intro he
      exact h (by rw [← he]; exact List.mem_map_of_mem _ (by simp))
    have h2 : dep_id ∉ ys.map fun r => r.identifier := by
      intro he
      exact h (by rw [List.map_cons]; exact List.mem_cons_of_mem _ he)
    rw [appendDependent, if_neg h1, ih h2]

theorem updateLast_eq_map (st : List AWSResource) (dep_id rid : String)
    (hnd : (st.map fun r => r.identifier).Nodup) :
    updateLast st dep_id rid = st.map (appendDependent dep_id rid) := by
  induction st with
  | nil => rfl
  | cons x xs ih =>
    rw [List.map_cons] at hnd
    rw [updateLast, List.map_cons]
    split
    · case isTrue h =>
      have h1 : x.identifier ≠ dep_id := by
        intro he
        exact (List.nodup_cons.mp hnd).1 (he ▸ h)
      rw [appendDependent, if_neg h1, ih (List.nodup_cons.mp hnd).2]
    · case isFalse h =>
      by_cases h1 : x.identifier = dep_id
      · rw [if_pos h1, appendDependent, if_pos h1, map_appendDependent_id xs dep_id rid h]
      · rw [if_neg h1, appendDependent, if_neg h1, map_appendDependent_id xs dep_id rid h]

theorem build_step_eq_map (st : List AWSResource) (rid dep_id : String)
    (hnd : (st.map fun r => r.identifier).Nodup) :
    build_step (st.map fun r => r.identifier) st rid dep_id
      = st.map (appendDependent dep_id rid) := by
  rw [build_step]
  split
  · case isTrue h => exact updateLast_eq_map st dep_id rid hnd
  · case isFalse h => exact (map_appendDependent_id st dep_id rid h).symm

theorem appendDependent_identifier (dep_id rid : String) (x : AWSResource) :
    (appendDependent dep_id rid x).identifier = x.identifier := by
  rw [appendDependent]
  split
  · rfl
  · rfl

theorem foldl_build_steps_eq (keys : List String) :
    ∀ (c st : List AWSResource),
      c.foldl (fun store r => r.dependencies.foldl
        (fun st dep_id => build_step keys st r.identifier dep_id) store) st
      = (depPairs c).foldl (fun st p => build_step keys st p.1 p.2) st := by
  intro c
  induction c with
  | nil => intro st; rfl
  | cons r c' ih =>
    intro st
    simp only [List.foldl_cons, depPairs, List.flatMap_cons, List.foldl_append]
    rw [show (depPairs c' = c'.flatMap fun q =>
      q.dependencies.map fun dep_id => (q.identifier, dep_id)) from rfl] at ih
    rw [ih]
    congr 1
    rw [List.foldl_map]

theorem build_fusion (c : List AWSResource) :
    build_dependency_map c
      = (depPairs c).foldl
          (fun st p => build_step (c.map fun r => r.identifier) st p.1 p.2)
          (c.map clearDependents) := by
  rw [build_dependency_map]
  exact foldl_build_steps_eq _ c _

theorem foldl_pairs_char :
    ∀ (L : List (String × String)) (st : List AWSResource) (keys : List String),
      keys = (st.map fun r => r.identifier) →
      ((st.map fun r => r.identifier).Nodup) →
      L.foldl (fun st p => build_step keys st p.1 p.2) st
        = st.map fun x =>
            { x with dependents := x.dependents
                ++ ((L.filter fun p => p.2 = x.identifier).map fun p => p.1) } := by
  intro L
  induction L with
  | nil =>
    intro st keys _ _
    rw [List.foldl_nil]
    symm
    apply List.map_id''
    intro x
    simp
  | cons p L' ih =>
    intro st keys hk hnd
    rw [List.foldl_cons]
    have hstep : build_step keys st p.1 p.2 = st.map (appendDependent p.2 p.1) := by
      rw [hk]
      exact build_step_eq_map st p.1 p.2 hnd
    have hids : ((st.map (appendDependent p.2 p.1)).map fun r => r.identifier)
        = st.map fun r => r.identifier := by
      rw [List.map_map]
      congr 1
      funext x
      exact appendDependent_identifier p.2 p.1 x
    rw [hstep, ih (st.map (appendDependent p.2 p.1)) keys
      (by rw [hids]; exact hk) (by rw [hids]; exact hnd)]
    rw [List.map_map]
    congr 1
    funext x
    by_cases hx : x.identifier = p.2
    · simp [Function.comp, appendDependent, hx, List.filter_cons, List.append_assoc]
    · have hne : (decide (p.2 = x.identifier)) = false := by
        simp
        intro he
        exact absurd he.symm hx
      simp [Function.comp, appendDependent, hx, List.filter_cons, hne]

theorem build_char (c : List AWSResource)
    (hnd : (c.map fun r => r.identifier).Nodup) :
    build_dependency_map c
      = c.map fun x =>
          { x with dependents :=
              ((depPairs c).filter fun p => p.2 = x.identifier).map fun p => p.1 } := by
  rw [build_fusion]
  rw [foldl_pairs_char (depPairs c) (c.map clearDependents) _
    (by rw [List.map_map]; rfl) (by rw [List.map_map]; exact hnd)]
  rw [List.map_map]
  rfl

theorem mem_dependents_for (c : List AWSResource) (t e : String) :
    e ∈ (((depPairs c).filter fun p => p.2 = t).map fun p => p.1)
      ↔ ∃ r ∈ c, r.identifier = e ∧ t ∈ r.dependencies := by
  constructor
  · intro h
    obtain ⟨p, hp, hpe⟩ := List.mem_map.mp h
    obtain ⟨hp1, hp2⟩ := List.mem_filter.mp hp
    obtain ⟨r, hr, hpr⟩ := List.mem_flatMap.mp hp1
    obtain ⟨d, hd, rfl⟩ := List.mem_map.mp hpr
    simp only [decide_eq_true_eq] at hp2
    exact ⟨r, hr, hpe, hp2 ▸ hd⟩
  · rintro ⟨r, hr, rfl, ht⟩
    refine List.mem_map.mpr ⟨(r.identifier, t), List.mem_filter.mpr ⟨?_, by simp⟩, rfl⟩
    exact List.mem_flatMap.mpr ⟨r, hr, List.mem_map_of_mem _ ht⟩

/-- C5: after `_build_dependency_map` on a catalog with pairwise-distinct
identifiers, for any two records A, B of the (rebuilt) catalog:
A's identifier is among B's dependencies iff B's identifier is among A's
dependents. -/
theorem c5_bidirectional_invariant (c : List AWSResource)
    (hnd : (c.map fun r => r.identifier).Nodup) :
    ∀ a ∈ build_dependency_map c, ∀ b ∈ build_dependency_map c,
      (a.identifier ∈ b.dependencies ↔ b.identifier ∈ a.dependents) := by
  intro a ha b hb
  rw [build_char c hnd] at ha hb
  obtain ⟨a0, ha0, rfl⟩ := List.mem_map.mp ha
  obtain ⟨b0, hb0, rfl⟩ := List.mem_map.mp hb
  constructor
  · intro h
    exact (mem_dependents_for c a0.identifier b0.identifier).mpr ⟨b0, hb0, rfl, h⟩
  · intro h
    obtain ⟨r, hr, hre, hrt⟩ :=
      (mem_dependents_for c a0.identifier b0.identifier).mp h
    have hrb : r = b0 :=
      List.inj_on_of_nodup_map hnd hr hb0 (by rw [hre])
    rw [← hrb]
    exact hrt

/-- C5 (witness): the invariant applied to the concrete rebuilt catalog
`build_dependency_map [catA, catB]`, at the pair (A rebuilt, B). -/
theorem c5_witness :
    builtCatA.identifier ∈ catB.dependencies
      ↔ catB.identifier ∈ builtCatA.dependents :=
  c5_bidirectional_invariant [catA, catB] (by decide)
    builtCatA (by decide) catB (by decide)

theorem foldl_map_clear (keys : List String) :
    ∀ (L : List (String × String)) (st : List AWSResource),
      ((L.foldl (fun st p => build_step keys st p.1 p.2) st).map clearDependents)
        = st.map clearDependents := by
  intro L
  induction L with
  | nil => intro st; rfl
  | cons p L' ih =>
    intro st
    rw [List.foldl_cons, ih]
    rw [build_step]
    split
    · exact updateLast_map_clear st p.2 p.1
    · rfl

theorem build_map_clear (c : List AWSResource) :
    (build_dependency_map c).map clearDependents = c.map clearDependents := by
  rw [build_fusion, foldl_map_clear, List.map_map]
  rfl

theorem build_ids (c : List AWSResource) :
    (build_dependency_map c).map (fun r => r.identifier)
      = c.map fun r => r.identifier := by
  have h := congrArg (List.map fun r => r.identifier) (build_map_clear c)
  rw [List.map_map, List.map_map] at h
  exact h

theorem depPairs_map_clear (l : List AWSResource) :
    depPairs (l.map clearDependents) = depPairs l := by
  simp only [depPairs, List.flatMap_map]
  rfl

theorem depPairs_build (c : List AWSResource) :
    depPairs (build_dependency_map c) = depPairs c := by
  rw [← depPairs_map_clear (build_dependency_map c), ← depPairs_map_clear c,
    build_map_clear c]

/-- C6: `_build_dependency_map` is idempotent: running it a second time on
the (already rebuilt) catalog leaves every record — in particular every
`dependents` list — exactly as after the first run, because each run first
clears all `dependents` and recomputes them from the unchanged
`identifier`/`dependencies` fields. -/
theorem c6_build_idempotent (c : List AWSResource) :
    build_dependency_map (build_dependency_map c) = build_dependency_map c := by
  conv_lhs => rw [build_fusion]
  rw [depPairs_build c, build_map_clear c]
  simp only [build_ids c]
  exact (build_fusion c).symm

theorem updateLast_mem (st : List AWSResource) (dep_id rid : String)
    (x : AWSResource) (hx : x ∈ updateLast st dep_id rid) :
    x ∈ st ∨ ∃ y ∈ st, y.identifier = dep_id
      ∧ x = { y with dependents := y.dependents ++ [rid] } := by
  induction st with
  | nil => cases hx
  | cons z zs ih =>
    rw [updateLast] at hx
    split at hx
    · rcases List.mem_cons.mp hx with h | h
      · exact Or.inl (h ▸ List.mem_cons_self z zs)
      · rcases ih h with h' | ⟨y, hy, hyd, hye⟩
        · exact Or.inl (List.mem_cons_of_mem _ h')
        · exact Or.inr ⟨y, List.mem_cons_of_mem _ hy, hyd, hye⟩
    · split at hx
      · rcases List.mem_cons.mp hx with h | h
        · exact Or.inr ⟨z, List.mem_cons_self z zs, by assumption, h⟩
        · exact Or.inl (List.mem_cons_of_mem _ h)
      · exact Or.inl hx

theorem foldl_pairs_sound (c : List AWSResource) :
    ∀ (L : List (String × String)) (st : List AWSResource) (keys : List String),
      (∀ p ∈ L, ∃ r ∈ c, r.identifier = p.1 ∧ p.2 ∈ r.dependencies) →
      (∀ x ∈ st, ∀ e ∈ x.dependents,
        ∃ r ∈ c, r.identifier = e ∧ x.identifier ∈ r.dependencies) →
      ∀ x ∈ L.foldl (fun st p => build_step keys st p.1 p.2) st,
        ∀ e ∈ x.dependents,
          ∃ r ∈ c, r.identifier = e ∧ x.identifier ∈ r.dependencies := by
  intro L
  induction L with
  | nil => intro st keys _ hst; exact hst
  | cons p L' ih =>
    intro st keys hL hst
    rw [List.foldl_cons]
    apply ih _ keys fun q hq => hL q (List.mem_cons_of_mem _ hq)
    intro x hx e he
    rw [build_step] at hx
    split at hx
    · rcases updateLast_mem st p.2 p.1 x hx with hmem | ⟨y, hy, hyd, rfl⟩
      · exact hst x hmem e he
      · rcases List.mem_append.mp he with h1 | h1
        · exact hst y hy e h1
        · have he1 : e = p.1 := by simpa using h1
          obtain ⟨r, hr, hr1, hr2⟩ := hL p (List.mem_cons_self _ _)
          refine ⟨r, hr, he1 ▸ hr1, ?_⟩
          show y.identifier ∈ r.dependencies
          rw [hyd]
          exact hr2
    · exact hst x hx e he

/-- C8: `_build_dependency_map` completes on every catalog: every record
comes back with all fields except `dependents` untouched (first conjunct),
and every entry of any rebuilt `dependents` list is the identifier of a
catalog record that really lists the owner among its dependencies — so a
dangling dependency reference (an id absent from the catalog) is skipped
silently and contributes no entry anywhere (second conjunct). -/
theorem c8_dangling_references (c : List AWSResource) :
    ((build_dependency_map c).map clearDependents = c.map clearDependents)
    ∧ ∀ x ∈ build_dependency_map c, ∀ e ∈ x.dependents,
        ∃ r ∈ c, r.identifier = e ∧ x.identifier ∈ r.dependencies := by
  refine ⟨build_map_clear c, ?_⟩
  intro x hx
  rw [build_fusion] at hx
  refine foldl_pairs_sound c (depPairs c) (c.map clearDependents) _ ?_ ?_ x hx
  · intro p hp
    obtain ⟨r, hr, hpr⟩ := List.mem_flatMap.mp hp
    obtain ⟨d, hd, rfl⟩ := List.mem_map.mp hpr
    exact ⟨r, hr, rfl, hd⟩
  · intro y hy e he
    obtain ⟨y0, _, rfl⟩ := List.mem_map.mp hy
    cases he

/-- C8 (witness): applied to the catalog `[catGhostI, catGhostV]` where
`catGhostV` declares one present dependency (`i`) and one dangling one
(`ghost`): the entry `v` that ends up in the rebuilt `i`-record's
dependents is justified by `catGhostV`. -/
theorem c8_witness :
    ∃ r ∈ [catGhostI, catGhostV], r.identifier = "v"
      ∧ ({ service := "ec2", resource_type := "instance", identifier := "i",
           name := "I", region := "us-east-1",
           dependents := ["v"] } : AWSResource).identifier ∈ r.dependencies :=
  (c8_dangling_references [catGhostI, catGhostV]).2
    { service := "ec2", resource_type := "instance", identifier := "i",
      name := "I", region := "us-east-1", dependents := ["v"] }
    (by decide) "v" (by decide)

theorem pair_chunk_eq (rid : String) (deps : List String) (t : String)
    (h : deps.Nodup) :
    (((deps.map fun d => (rid, d)).filter fun p => p.2 = t).map fun p => p.1)
      = if t ∈ deps then [rid] else [] := by
  induction deps with
  | nil => simp
  | cons d ds ih =>
    rw [List.nodup_cons] at h
    rw [List.map_cons]
    by_cases hd : d = t
    · subst hd
      rw [List.filter_cons_of_pos (by simp), List.map_cons,
        if_pos (List.mem_cons_self _ _)]
      have hnil : ((ds.map fun d' => (rid, d')).filter fun p => p.2 = d) = [] := by
        apply List.filter_eq_nil_iff.mpr
        intro p hp hpt
        obtain ⟨d', hd', rfl⟩ := List.mem_map.mp hp
        rw [decide_eq_true_eq] at hpt
        have hde : d' = d := hpt
        exact h.1 (hde ▸ hd')
      rw [hnil]
      rfl
    · rw [List.filter_cons_of_neg (by simp [hd]), ih h.2]
      have hiff : (t ∈ d :: ds) ↔ (t ∈ ds) := by
        constructor
        · intro hm
          rcases List.mem_cons.mp hm with h' | h'
          · exact absurd h'.symm hd
          · exact h'
        · exact List.mem_cons_of_mem _
      by_cases ht : t ∈ ds
      · rw [if_pos ht, if_pos (hiff.mpr ht)]
      · rw [if_neg ht, if_neg fun hm => ht (hiff.mp hm)]

theorem dependents_for_eq_filter (c : List AWSResource) (t : String)
    (hdeps : ∀ r ∈ c, r.dependencies.Nodup) :
    (((depPairs c).filter fun p => p.2 = t).map fun p => p.1)
      = (c.filter fun r => t ∈ r.dependencies).map fun r => r.identifier := by
  induction c with
  | nil => rfl
  | cons r c' ih =>
    have ih' := ih fun q hq => hdeps q (List.mem_cons_of_mem _ hq)
    simp only [depPairs] at ih' ⊢
    rw [List.flatMap_cons, List.filter_append, List.map_append,
      pair_chunk_eq r.identifier r.dependencies t (hdeps r (List.mem_cons_self _ _)),
      ih']
    by_cases ht : t ∈ r.dependencies
    · rw [if_pos ht, List.filter_cons_of_pos (by simpa using ht), List.map_cons]
      rfl
    · rw [if_neg ht, List.filter_cons_of_neg (by simpa using ht)]
      simp

/-- C7 (counterexample): the catalog `[catA, catDupDep]` has
pairwise-distinct identifiers, yet after the rebuild record `a` carries the
dependent `b` twice, because `catDupDep` lists the dependency `a` twice and
each occurrence appends separately. -/
theorem c7_counterexample :
    (([catA, catDupDep].map fun r => r.identifier).Nodup)
    ∧ ∃ x ∈ build_dependency_map [catA, catDupDep], ¬ x.dependents.Nodup := by
  decide

/-- C7 (amended): after a rebuild of a catalog with pairwise-distinct
identifiers in which no record's dependencies list contains a duplicate
entry, no identifier appears twice in any record's dependents list. -/
theorem c7_nodup_dependents (c : List AWSResource)
    (hnd : (c.map fun r => r.identifier).Nodup)
    (hdeps : ∀ r ∈ c, r.dependencies.Nodup) :
    ∀ x ∈ build_dependency_map c, x.dependents.Nodup := by
  intro x hx
  rw [build_char c hnd] at hx
  obtain ⟨x0, hx0, rfl⟩ := List.mem_map.mp hx
  show (((depPairs c).filter fun p => p.2 = x0.identifier).map fun p => p.1).Nodup
  rw [dependents_for_eq_filter c x0.identifier hdeps]
  exact List.Nodup.sublist (List.Sublist.map _ (List.filter_sublist c)) hnd

/-- C7 (witness): the amended theorem applied to `[catA, catB]`, at the
rebuilt record of `a`. -/
theorem c7_witness : builtCatA.dependents.Nodup :=
  c7_nodup_dependents [catA, catB] (by decide) (by decide) builtCatA (by decide)

theorem removeAll_to_legacy :
    ∀ (cd rem rem' : List AWSResource) (ids ids' : List String),
      removeAll rem ids cd = some (rem', ids') →
      legacyRemoveAll rem cd = some rem' := by
  intro cd
  induction cd with
  | nil =>
    intro rem rem' ids ids' h
    simp only [removeAll, Option.some.injEq, Prod.mk.injEq] at h
    rw [legacyRemoveAll, h.1]
  | cons r cd' ih =>
    intro rem rem' ids ids' h
    rw [removeAll] at h
    rw [legacyRemoveAll]
    cases h1 : pyListRemove rem r with
    | none => rw [h1] at h; cases h
    | some rem1 =>
      rw [h1] at h
      cases h2 : pySetRemove ids r.identifier with
      | none => rw [h2] at h; cases h
      | some ids1 =>
        rw [h2] at h
        exact ih rem1 rem' ids1 ids' h

theorem removeAll_perm :
    ∀ (cd rem rem' : List AWSResource) (ids ids' : List String),
      removeAll rem ids cd = some (rem', ids') →
      rem.Perm (cd ++ rem') := by
  intro cd
  induction cd with
  | nil =>
    intro rem rem' ids ids' h
    simp only [removeAll, Option.some.injEq, Prod.mk.injEq] at h
    rw [h.1]
    exact List.Perm.refl _
  | cons r cd' ih =>
    intro rem rem' ids ids' h
    rw [removeAll] at h
    cases h1 : pyListRemove rem r with
    | none => rw [h1] at h; cases h
    | some rem1 =>
      rw [h1] at h
      cases h2 : pySetRemove ids r.identifier with
      | none => rw [h2] at h; cases h
      | some ids1 =>
        rw [h2] at h
        have hmem : r ∈ rem ∧ rem1 = rem.erase r := by
          by_cases hr : r ∈ rem
          · refine ⟨hr, ?_⟩
            rw [pyListRemove_of_mem hr] at h1
            exact (Option.some.injEq _ _ ▸ h1).symm
          · simp [pyListRemove, hr] at h1
        have hp := ih rem1 rem' ids1 ids' h
        rw [hmem.2] at hp
        exact (List.perm_cons_erase hmem.1).trans (List.Perm.cons r hp)

theorem orderLoop_perm :
    ∀ (fuel : Nat) (rem : List AWSResource) (ids : List String)
      (ord : List AWSResource) (w : Nat),
      orderLoop fuel rem ids = .ok (ord, w) → ord.Perm rem := by
  intro fuel
  induction fuel with
  | zero =>
    intro rem ids ord w h
    cases rem with
    | nil =>
      simp only [orderLoop, PyResult.ok.injEq, Prod.mk.injEq] at h
      rw [← h.1]
    | cons r0 rest => rw [orderLoop] at h; cases h
  | succ f ih =>
    intro rem ids ord w h
    cases rem with
    | nil =>
      simp only [orderLoop, PyResult.ok.injEq, Prod.mk.injEq] at h
      rw [← h.1]
    | cons r0 rest =>
      rw [orderLoop] at h
      cases hra : removeAll (r0 :: rest) ids (round_delete (r0 :: rest) ids) with
      | none => rw [hra] at h; cases h
      | some st =>
        rw [hra] at h
        simp only at h
        cases h3 : orderLoop f st.1 st.2 with
        | ok res =>
          rw [h3] at h
          simp only [PyResult.ok.injEq, Prod.mk.injEq] at h
          rw [← h.1]
          have hp1 : res.1.Perm st.1 := ih st.1 st.2 res.1 res.2 h3
          have hp2 := removeAll_perm _ _ _ _ _ hra
          exact (List.Perm.append_left _ hp1).trans hp2.symm
        | exn => rw [h3] at h; cases h
        | outOfFuel => rw [h3] at h; cases h

theorem legacy_agrees :
    ∀ (fuel : Nat) (rem : List AWSResource),
      ((rem.map fun r => r.identifier).Nodup) →
      legacyLoop fuel rem = resultOrder (orderLoop fuel rem (rem.map fun r => r.identifier)) := by
  intro fuel
  induction fuel with
  | zero =>
    intro rem hnd
    cases rem with
    | nil => rfl
    | cons r0 rest => rfl
  | succ f ih =>
    intro rem hnd
    cases rem with
    | nil => rfl
    | cons r0 rest =>
      obtain ⟨rem', hra, hnd', -, -⟩ :=
        removeAll_ok (round_delete (r0 :: rest) ((r0 :: rest).map fun r => r.identifier))
          (r0 :: rest)
          (round_delete_nodup _ _ (List.Nodup.of_map _ hnd))
          (round_delete_subset _ _) hnd
      have hleg := removeAll_to_legacy _ _ _ _ _ hra
      rw [legacyLoop, hleg, orderLoop, hra]
      simp only
      rw [ih rem' hnd']
      cases h3 : orderLoop f rem' (rem'.map fun r => r.identifier) with
      | ok res => rfl
      | exn => rfl
      | outOfFuel => rfl

/-- C10 (counterexample): on the duplicate-identifier selection
`[dupA, dupB]` the legacy loop of `delete_resources` returns the order
`[dupA, dupB]` while the modular `get_deletion_order` raises `KeyError`,
so the two implementations are not observationally equivalent on every
input list. -/
theorem c10_counterexample :
    delete_resources_order [dupA, dupB] = .ok [dupA, dupB]
    ∧ resultOrder (get_deletion_order [dupA, dupB]) = .exn
    ∧ delete_resources_order [dupA, dupB]
        ≠ resultOrder (get_deletion_order [dupA, dupB]) := by
  refine ⟨by decide, by decide, by decide⟩

/-- C10 (amended): on every selection whose records carry pairwise-distinct
identifiers, the legacy inline ordering loop of
`InteractiveCleanup.delete_resources` computes exactly the deletion
sequence of `ResourceDiscovery.get_deletion_order`. -/
theorem c10_legacy_equivalence (S : List AWSResource)
    (hnd : (S.map fun r => r.identifier).Nodup) :
    delete_resources_order S = resultOrder (get_deletion_order S) := by
  rw [delete_resources_order, get_deletion_order, List.dedup_eq_self.mpr hnd]
  exact legacy_agrees S.length S hnd

/-- C10 (witness): the equivalence at the concrete selection
`[selSubnet, selVpc]`. -/
theorem c10_witness :
    delete_resources_order [selSubnet, selVpc]
      = resultOrder (get_deletion_order [selSubnet, selVpc]) :=
  c10_legacy_equivalence [selSubnet, selVpc] (by decide)

/-- C9: `get_deletion_order` only reads its input: the embedding is a pure
function of the selection (the Python body assigns no record field and
only mutates the local copies `remaining`, `remaining_ids`,
`deletion_order`), and every record of the returned sequence is an element
of the input list, all fields exactly as supplied.  (That the returned
Python list is a fresh object rather than an alias is an object-identity
property outside a value-level embedding.) -/
theorem c9_no_input_mutation (S ord : List AWSResource) (w : Nat)
    (h : get_deletion_order S = .ok (ord, w)) :
    ∀ r ∈ ord, r ∈ S := by
  intro r hr
  have hp : ord.Perm S := orderLoop_perm S.length S _ ord w h
  exact hp.subset hr

/-- C9 (witness): the theorem at the run
`get_deletion_order [selSubnet, selVpc] = ok ([selSubnet, selVpc], 0)`. -/
theorem c9_witness : selSubnet ∈ [selSubnet, selVpc] :=
  c9_no_input_mutation [selSubnet, selVpc] [selSubnet, selVpc] 0
    (by decide) selSubnet (by decide)

/-- C3 (witness): termination at the concrete cyclic selection
`[cycA, cycB]`. -/
theorem c3_witness : get_deletion_order [cycA, cycB] ≠ .outOfFuel :=
  c3_terminates [cycA, cycB]
